import Mathlib

/-!
Shallow embedding of the OCR pipeline core in `src/src/tesseract-ocr-utils.cpp`
(the obs-ocr plugin).

Modelling conventions:
* `std::string` and the character data handed to the smoothing filter are
  modelled as `List Char`; `std::deque<char>` as a `List Char` whose head is the
  deque front (the oldest element).
* Machine integers are modelled as `Nat`/`Int`.  The float expressions of the
  source (the change-detection pixel threshold and the region confidence) are
  modelled in exact integer arithmetic; this is noted at each definition.
* The OCR backend (tesseract), OpenCV image buffers and the real-time clock are
  external collaborators: their outputs (recognized text, mean confidence,
  region iterator contents, elapsed milliseconds) enter the model as inputs of
  the embedded functions.
* Fallible code paths (the C++ would dereference an end iterator, i.e. undefined
  behaviour, when a smoothing window is empty) are modelled with `Option`.
-/

namespace ObsOcr

/-! ## CharacterBasedSmoothingFilter -/

/-- The smoothing filter state: `word_length`, `window_size` and
`readings : std::vector<std::deque<char>>` (one sliding window per character
position, oldest character at the head). -/
structure CharacterBasedSmoothingFilter where
  word_length : Nat
  window_size : Nat
  readings : List (List Char)
deriving DecidableEq

/-- The constructor `CharacterBasedSmoothingFilter(word_length_, window_size_)`:
`readings(word_length_, std::deque<char>(window_size_))` value-initializes each
of the `word_length` deques with `window_size` NUL (`'\0'`) characters, so every
window starts full. -/
def mkFilter (word_length_ window_size_ : Nat) : CharacterBasedSmoothingFilter :=
  ⟨word_length_, window_size_,
    List.replicate word_length_ (List.replicate window_size_ (Char.ofNat 0))⟩

/-- `*std::max_element(window.begin(), window.end(), cmp)` with
`cmp a b := count(window, a) < count(window, b)`: starts from the first element
and replaces the running maximum only on a strictly greater count, hence yields
the first element (in oldest-to-newest window order) attaining the maximal
occurrence count.  `none` models the empty-range case, where the C++ would
dereference the end iterator. -/
def mostCommonChar (l : List Char) : Option Char :=
  match l with
  | [] => none
  | x :: xs => some (xs.foldl (fun m y => if l.count m < l.count y then y else m) x)

/-- Total helper extracting the most common character (only used at nonempty
windows, where it agrees with `mostCommonChar`). -/
def mcD (l : List Char) : Char := (mostCommonChar l).getD (Char.ofNat 0)

/-- The input normalization at the top of `add_reading`: if the word length
differs from `word_length`, trim it when longer and right-pad it with spaces
when shorter. -/
def normalizeWord (word_length : Nat) (inWord : List Char) : List Char :=
  if inWord.length = word_length then inWord
  else
    let w1 := if word_length < inWord.length then inWord.take word_length else inWord
    if w1.length < word_length then w1 ++ List.replicate (word_length - w1.length) ' '
    else w1

/-- One window update of `add_reading`: `readings[i].push_back(word[i])` followed
by `if (readings[i].size() > window_size) readings[i].pop_front()`. -/
def pushWindow (window_size : Nat) (win : List Char) (c : Char) : List Char :=
  let w2 := win ++ [c]
  if window_size < w2.length then w2.tail else w2

/-- The per-position loop of `add_reading`, walking the windows and the
normalized word in lockstep; `none` models the out-of-range cases the C++ cannot
handle (length mismatch, empty window under `max_element`). -/
def addReadingAux (window_size : Nat) :
    List (List Char) → List Char → Option (List Char × List (List Char))
  | [], [] => some ([], [])
  | win :: rest, c :: cs =>
    let win2 := pushWindow window_size win c
    match mostCommonChar win2, addReadingAux window_size rest cs with
    | some m, some (out, wins) => some (m :: out, win2 :: wins)
    | _, _ => none
  | _, _ => none

/-- `CharacterBasedSmoothingFilter::add_reading`: normalize the input to
`word_length` characters, push each character into its position's window
(evicting the oldest element on overflow) and emit the most common character of
each updated window. -/
def add_reading (f : CharacterBasedSmoothingFilter) (inWord : List Char) :
    Option (List Char × CharacterBasedSmoothingFilter) :=
  match addReadingAux f.window_size f.readings (normalizeWord f.word_length inWord) with
  | none => none
  | some (out, readings2) => some (out, ⟨f.word_length, f.window_size, readings2⟩)

/-- Iterated calls of `add_reading`, keeping the final filter state (the outputs
of the intermediate calls are discarded). -/
def feedAll (f : CharacterBasedSmoothingFilter) :
    List (List Char) → Option CharacterBasedSmoothingFilter
  | [] => some f
  | w :: ws =>
    match add_reading f w with
    | none => none
    | some (_, f2) => feedAll f2 ws

/-- Per-position window evolution under repeated feeding of the same character
(`k` successive `pushWindow`s of `c`). -/
def winFeed (window_size : Nat) (c : Char) : Nat → List Char → List Char
  | 0, win => win
  | k + 1, win => winFeed window_size c k (pushWindow window_size win c)

/-! ## strip and run_tesseract_ocr -/

/-- Membership in the whitespace set `" \t\n\r"` of `strip`. -/
def isStripWhitespace (c : Char) : Bool :=
  c = ' ' || c = '\t' || c = '\n' || c = '\r'

/-- `strip`: remove the leading and trailing run of characters from
`" \t\n\r"` (`find_first_not_of` / `find_last_not_of` plus `substr`); a string of
only such characters becomes empty. -/
def strip (s : List Char) : List Char :=
  ((s.dropWhile isStripWhitespace).reverse.dropWhile isStripWhitespace).reverse

/-- The backend outputs consumed by `run_tesseract_ocr`: `GetUTF8Text()` (with
`none` modelling a `nullptr` result) and `MeanTextConf()`. -/
structure OcrReading where
  text : Option (List Char)
  confidence : Int
deriving DecidableEq

/-- The configuration fields read by `run_tesseract_ocr`. -/
structure OcrConfig where
  conf_threshold : Int
  enable_smoothing : Bool
deriving DecidableEq

/-- `run_tesseract_ocr`: an empty result for a null text pointer; an empty
result (before any stripping or smoothing) when the mean confidence is below
`conf_threshold`; otherwise the stripped text, passed through the smoothing
filter when smoothing is enabled.  Returns the result string together with the
(possibly updated) smoothing filter state. -/
def run_tesseract_ocr (cfg : OcrConfig) (filt : CharacterBasedSmoothingFilter)
    (reading : OcrReading) : Option (List Char × CharacterBasedSmoothingFilter) :=
  match reading.text with
  | none => some ([], filt)
  | some t =>
    if reading.confidence < cfg.conf_threshold then some ([], filt)
    else
      let stripped := strip t
      if cfg.enable_smoothing then add_reading filt stripped
      else some (stripped, filt)

/-! ## extract_text_detection_boxes -/

/-- `tesseract::PageIteratorLevel`, restricted to the two values the code
selects between (`RIL_WORD`, and `RIL_SYMBOL` for `PSM_SINGLE_CHAR`). -/
inductive PageIteratorLevel
  | word
  | symbol
deriving DecidableEq

/-- One entry of the backend's result iterator: the `Empty(level)` flag, the
per-region confidence `(int)ri->Confidence(level)` (the float is modelled after
its truncating cast to `int`), the bounding box corners from
`ri->BoundingBox(level, ...)` and the region text. -/
structure RawRegion where
  isEmpty : Bool
  confidence : Int
  left : Int
  top : Int
  right : Int
  bottom : Int
  text : List Char
deriving DecidableEq

/-- `OCRBox`: a `cv::Rect` (x, y, width, height) plus the region text. -/
structure OCRBox where
  x : Int
  y : Int
  w : Int
  h : Int
  text : List Char
deriving DecidableEq

/-- The iteration level: `RIL_SYMBOL` when the page segmentation mode is
`PSM_SINGLE_CHAR`, else `RIL_WORD`. -/
def region_level (psm_single_char : Bool) : PageIteratorLevel :=
  if psm_single_char then .symbol else .word

/-- The per-region body of the `do`/`while` loop of
`extract_text_detection_boxes`: skip empty regions; at word level skip regions
with confidence below `conf_threshold`; then build the box and skip it when its
area is below 100 or above half the image area (`(width*height)/2`, integer
division). -/
def process_region (level : PageIteratorLevel) (conf_threshold : Int)
    (imgW imgH : Nat) (r : RawRegion) : Option OCRBox :=
  if r.isEmpty then none
  else if level = .word ∧ r.confidence < conf_threshold then none
  else
    let area : Int := (r.right - r.left) * (r.bottom - r.top)
    if area < 100 ∨ (((imgW * imgH) / 2 : Nat) : Int) < area then none
    else some ⟨r.left, r.top, r.right - r.left, r.bottom - r.top, r.text⟩

/-- `extract_text_detection_boxes`: the surviving boxes of all regions produced
by the backend's result iterator, in order. -/
def extract_text_detection_boxes (psm_single_char : Bool) (conf_threshold : Int)
    (imgW imgH : Nat) (rs : List RawRegion) : List OCRBox :=
  rs.filterMap (process_region (region_level psm_single_char) conf_threshold imgW imgH)

/-! ## Frames and change detection -/

/-- One BGRA pixel (8-bit channels). -/
structure Pixel where
  b : Nat
  g : Nat
  r : Nat
  a : Nat
deriving DecidableEq

/-- A `cv::Mat` of BGRA pixels, row-major. -/
structure Frame where
  width : Nat
  height : Nat
  pixels : List Pixel
deriving DecidableEq

/-- `cv::Mat::empty()` (no pixels); the never-assigned `lastInputBGRA` and the
not-cloned `imageBGRA` are such empty mats. -/
def Frame.isEmptyMat (f : Frame) : Bool := f.width * f.height == 0

/-- `imageBGRA.size() == tf->lastInputBGRA.size()`. -/
def sameSize (f g : Frame) : Bool := f.width == g.width && f.height == g.height

/-- `cv::absdiff` on one channel: `|x - y|`. -/
def absdiffNat (x y : Nat) : Nat := max x y - min x y

/-- Grayscale value of the per-channel absolute difference of two pixels:
`cv::absdiff` followed by `cv::cvtColor(..., COLOR_BGRA2GRAY)`.  OpenCV's 8-bit
conversion is fixed-point with coefficients R=4899, G=9617, B=1868 and a 14-bit
shift with rounding; alpha is ignored. -/
def diffGray (p q : Pixel) : Nat :=
  (4899 * absdiffNat p.r q.r + 9617 * absdiffNat p.g q.g + 1868 * absdiffNat p.b q.b
    + 8192) / 16384

/-- `cv::countNonZero` of the gray-converted absolute difference of two frames:
the number of pixel positions whose luminance difference is nonzero. -/
def countNonZeroDiff (f g : Frame) : Nat :=
  (f.pixels.zip g.pixels).countP (fun pq => diffGray pq.1 pq.2 != 0)

/-- `(int)((float)update_on_change_threshold / 100.0f * (float)(cols*rows))`,
modelled in exact integer arithmetic (the floor of `threshold * area / 100`). -/
def change_threshold_px (threshold w h : Nat) : Nat := threshold * (w * h) / 100

/-- The change-detection decision of the worker loop: detection enabled, same
dimensions as the cached frame and a nonzero-diff pixel count strictly below the
percentage threshold of the image area. -/
def change_skip (update_on_change : Bool) (threshold : Nat) (frame cache : Frame) : Bool :=
  update_on_change && sameSize frame cache &&
    decide (countNonZeroDiff frame cache <
      change_threshold_px threshold frame.width frame.height)

/-! ## One iteration of tesseract_thread -/

/-- The configuration fields read by one worker-loop iteration (a snapshot of
the `filter_data` settings). -/
structure ThreadConfig where
  update_on_change : Bool
  update_on_change_threshold : Nat
  conf_threshold : Int
  enable_smoothing : Bool
  psm_single_char : Bool
  output_image_valid : Bool
  output_source_valid : Bool
  update_timer_ms : Int
deriving DecidableEq

/-- The external inputs of one worker-loop iteration: whether the non-blocking
`try_to_lock` on `inputBGRALock` succeeded, the shared input frame, the backend
outputs for this pass (text, mean confidence, region iterator contents) and the
measured processing time in milliseconds. -/
structure IterationInput where
  lockAcquired : Bool
  frame : Frame
  ocrText : Option (List Char)
  meanConfidence : Int
  regions : List RawRegion
  elapsed_ms : Int
deriving DecidableEq

/-- The observable outcome of one worker-loop iteration. -/
structure IterationResult where
  changeSkip : Bool
  cacheAfter : Frame
  filterAfter : CharacterBasedSmoothingFilter
  ocrResult : Option (List Char)
  boxesOut : Option (List OCRBox)
  reachedSleep : Bool
  sleepMs : Int
deriving DecidableEq

/-- A frame was obtained: the try-lock succeeded and the cloned `imageBGRA` is
not empty. -/
def frame_available (inp : IterationInput) : Bool :=
  inp.lockAcquired && !inp.frame.isEmptyMat

/-- One iteration of the `while (true)` body of `tesseract_thread`:

* no frame (lock unavailable or empty input): no processing, fall through to the
  sleep block;
* change detection signals a skip: `continue` — the cache, filter and outputs
  are untouched **and the sleep block at the bottom of the loop body is
  bypassed** (`reachedSleep := false`);
* otherwise the frame is processed: the cache is refreshed, OCR runs (its result
  and updated filter as per `run_tesseract_ocr`), the detection boxes are
  extracted when an output image source is configured, and the iteration falls
  through to the sleep block.

`sleepMs` is the duration handed to the interruptible
`tesseract_thread_cv.wait_for` (the code only waits when
`update_timer_ms - elapsed > 0`, so the slept duration is
`max 0 (update_timer_ms - elapsed_ms)`).  Preprocessing (binarization, dilation,
rescale) transforms the image between the cache refresh and the OCR call and is
absorbed into the backend-output oracle, as no claim depends on it. -/
def tesseract_iteration (cfg : ThreadConfig) (cache : Frame)
    (filt : CharacterBasedSmoothingFilter) (inp : IterationInput) : IterationResult :=
  if frame_available inp then
    if change_skip cfg.update_on_change cfg.update_on_change_threshold inp.frame cache then
      { changeSkip := true, cacheAfter := cache, filterAfter := filt, ocrResult := none,
        boxesOut := none, reachedSleep := false, sleepMs := 0 }
    else
      let ocr := run_tesseract_ocr ⟨cfg.conf_threshold, cfg.enable_smoothing⟩ filt
        ⟨inp.ocrText, inp.meanConfidence⟩
      { changeSkip := false, cacheAfter := inp.frame,
        filterAfter := (ocr.map Prod.snd).getD filt,
        ocrResult := ocr.map Prod.fst,
        boxesOut :=
          if cfg.output_image_valid then
            some (extract_text_detection_boxes cfg.psm_single_char cfg.conf_threshold
              inp.frame.width inp.frame.height inp.regions)
          else none,
        reachedSleep := true, sleepMs := max 0 (cfg.update_timer_ms - inp.elapsed_ms) }
  else
    { changeSkip := false, cacheAfter := cache, filterAfter := filt, ocrResult := none,
      boxesOut := none, reachedSleep := true,
      sleepMs := max 0 (cfg.update_timer_ms - inp.elapsed_ms) }

/-! ## Lemmas about the max_element fold -/

/-- The running-maximum fold performed by `std::max_element` with key `cnt`. -/
def mcFold (cnt : Char → Nat) (x : Char) (xs : List Char) : Char :=
  xs.foldl (fun m y => if cnt m < cnt y then y else m) x

theorem mostCommonChar_cons (x : Char) (xs : List Char) :
    mostCommonChar (x :: xs) = some (mcFold (fun d => (x :: xs).count d) x xs) := rfl

theorem mcFold_le (cnt : Char → Nat) :
    ∀ (xs : List Char) (x d : Char), d = x ∨ d ∈ xs → cnt d ≤ cnt (mcFold cnt x xs)
  | [], x, d, hd => by
    rcases hd with rfl | hd
    · exact le_rfl
    · cases hd
  | y :: ys, x, d, hd => by
    have hstep : cnt x ≤ cnt (if cnt x < cnt y then y else x) ∧
        cnt y ≤ cnt (if cnt x < cnt y then y else x) := by
      by_cases h : cnt x < cnt y <;> simp [h] <;> omega
    have ih := mcFold_le cnt ys (if cnt x < cnt y then y else x)
    have hfold : mcFold cnt x (y :: ys) = mcFold cnt (if cnt x < cnt y then y else x) ys := rfl
    rw [hfold]
    rcases hd with rfl | hd
    · exact le_trans hstep.1 (ih _ (Or.inl rfl))
    · rcases List.mem_cons.mp hd with rfl | hd
      · exact le_trans hstep.2 (ih _ (Or.inl rfl))
      · exact ih d (Or.inr hd)

theorem mcFold_first (cnt : Char → Nat) :
    ∀ (xs : List Char) (x : Char),
      mcFold cnt x xs = x ∨
      ∃ as y bs, xs = as ++ y :: bs ∧ mcFold cnt x xs = y ∧ cnt x < cnt y ∧
        ∀ a ∈ as, cnt a < cnt y
  | [], x => Or.inl rfl
  | z :: zs, x => by
    have hfold : mcFold cnt x (z :: zs) = mcFold cnt (if cnt x < cnt z then z else x) zs := rfl
    by_cases h : cnt x < cnt z
    · rw [if_pos h] at hfold
      rcases mcFold_first cnt zs z with h0 | ⟨as, y, bs, hzs, hy, hlt, hall⟩
      · refine Or.inr ⟨[], z, zs, rfl, ?_, h, by simp⟩
        rw [hfold, h0]
      · refine Or.inr ⟨z :: as, y, bs, by rw [hzs]; rfl, by rw [hfold, hy],
          lt_trans h hlt, ?_⟩
        intro a ha
        rcases List.mem_cons.mp ha with rfl | ha
        · exact hlt
        · exact hall a ha
    · rw [if_neg h] at hfold
      rcases mcFold_first cnt zs x with h0 | ⟨as, y, bs, hzs, hy, hlt, hall⟩
      · exact Or.inl (by rw [hfold, h0])
      · refine Or.inr ⟨z :: as, y, bs, by rw [hzs]; rfl, by rw [hfold, hy], hlt, ?_⟩
        intro a ha
        rcases List.mem_cons.mp ha with rfl | ha
        · exact lt_of_le_of_lt (Nat.le_of_not_lt h) hlt
        · exact hall a ha

theorem mcFold_replicate (cnt : Char → Nat) (c : Char) :
    ∀ (k : Nat) (m : Char),
      mcFold cnt m (List.replicate (k + 1) c) = if cnt m < cnt c then c else m
  | 0, m => rfl
  | k + 1, m => by
    have hfold : mcFold cnt m (List.replicate (k + 2) c)
        = mcFold cnt (if cnt m < cnt c then c else m) (List.replicate (k + 1) c) := rfl
    rw [hfold, mcFold_replicate cnt c k]
    by_cases h : cnt m < cnt c
    · simp [h]
    · simp [h]

theorem mcFold_replicate_self (cnt : Char → Nat) (c : Char) (k : Nat) :
    mcFold cnt c (List.replicate k c) = c := by
  cases k with
  | zero => rfl
  | succ k => rw [mcFold_replicate]; simp

/-- Specification of `mostCommonChar`: the selected character attains the
maximal occurrence count, and every character strictly before its position in
the window has a strictly smaller count (so among ties the earliest-appearing
value is selected). -/
theorem mostCommonChar_spec (l : List Char) (c : Char) (h : mostCommonChar l = some c) :
    (∀ d ∈ l, l.count d ≤ l.count c) ∧
    ∃ as bs, l = as ++ c :: bs ∧ ∀ a ∈ as, l.count a < l.count c := by
  cases l with
  | nil => cases h
  | cons x xs =>
    rw [mostCommonChar_cons, Option.some_inj] at h
    subst h
    set cnt : Char → Nat := fun d => (x :: xs).count d with hcnt
    constructor
    · intro d hd
      rcases List.mem_cons.mp hd with rfl | hd
      · exact mcFold_le cnt xs d d (Or.inl rfl)
      · exact mcFold_le cnt xs x d (Or.inr hd)
    · rcases mcFold_first cnt xs x with h0 | ⟨as, y, bs, hxs, hy, hlt, hall⟩
      · exact ⟨[], xs, by simp [h0], by simp⟩
      · refine ⟨x :: as, bs, ?_, ?_⟩
        · rw [hy, hxs]; rfl
        · intro a ha
          rw [hy]
          rcases List.mem_cons.mp ha with rfl | ha
          · exact hlt
          · exact hall a ha

theorem mostCommonChar_replicate (c : Char) (n : Nat) (hn : 1 ≤ n) :
    mostCommonChar (List.replicate n c) = some c := by
  cases n with
  | zero => omega
  | succ k =>
    rw [List.replicate_succ, mostCommonChar_cons, mcFold_replicate_self]

theorem mostCommonChar_replicate_append (x y : Char) (hxy : x ≠ y) (a b : Nat)
    (hab : 1 ≤ a + b) :
    mostCommonChar (List.replicate a x ++ List.replicate b y)
      = some (if a < b then y else x) := by
  cases a with
  | zero =>
    have hb : 1 ≤ b := by omega
    rw [List.replicate_zero, List.nil_append,
      mostCommonChar_replicate y b hb, if_pos (by omega)]
  | succ n =>
    have hcx : (List.replicate (n + 1) x ++ List.replicate b y).count x = n + 1 := by
      simp [List.count_append, List.count_replicate_self, List.count_replicate,
        Ne.symm hxy]
    have hcy : (List.replicate (n + 1) x ++ List.replicate b y).count y = b := by
      simp [List.count_append, List.count_replicate_self, List.count_replicate, hxy]
    rw [List.replicate_succ, List.cons_append, mostCommonChar_cons]
    set cnt : Char → Nat :=
      fun d => (x :: (List.replicate n x ++ List.replicate b y)).count d with hcnt
    have hcnt_x : cnt x = n + 1 := by
      rw [hcnt]; simpa [List.replicate_succ] using hcx
    have hcnt_y : cnt y = b := by
      rw [hcnt]; simpa [List.replicate_succ] using hcy
    have hfold : mcFold cnt x (List.replicate n x ++ List.replicate b y)
        = mcFold cnt (mcFold cnt x (List.replicate n x)) (List.replicate b y) := by
      rw [mcFold, List.foldl_append]; rfl
    rw [hfold, mcFold_replicate_self]
    cases b with
    | zero => rw [if_neg (by omega)]; rfl
    | succ m =>
      rw [mcFold_replicate, hcnt_x, hcnt_y]

/-! ## Lemmas about windows, normalization and add_reading -/

theorem pushWindow_ne_nil (N : Nat) (hN : 1 ≤ N) (win : List Char) (c : Char) :
    pushWindow N win c ≠ [] := by
  unfold pushWindow
  by_cases h : N < (win ++ [c]).length
  · rw [if_pos h]
    cases win with
    | nil => exact absurd h (by simp; omega)
    | cons w ws => simp
  · rw [if_neg h]
    simp

theorem pushWindow_full (N : Nat) (hN : 1 ≤ N) (win : List Char) (c : Char)
    (h : win.length = N) : pushWindow N win c = win.tail ++ [c] := by
  have hc : N < (win ++ [c]).length := by
    rw [List.length_append, h]
    simp
  show (if N < (win ++ [c]).length then (win ++ [c]).tail else win ++ [c])
    = win.tail ++ [c]
  rw [if_pos hc]
  cases win with
  | nil => simp at h; omega
  | cons w ws => simp

theorem pushWindow_length (N : Nat) (hN : 1 ≤ N) (win : List Char) (c : Char)
    (h : win.length = N) : (pushWindow N win c).length = N := by
  rw [pushWindow_full N hN win c h]
  cases win with
  | nil => simp at h; omega
  | cons w ws => simp at h ⊢; omega

theorem mostCommonChar_of_ne_nil (l : List Char) (h : l ≠ []) :
    mostCommonChar l = some (mcD l) := by
  cases l with
  | nil => exact absurd rfl h
  | cons x xs => rfl

theorem addReadingAux_succeeds (N : Nat) (hN : 1 ≤ N) :
    ∀ (rs : List (List Char)) (cs : List Char), rs.length = cs.length →
      addReadingAux N rs cs =
        some (List.zipWith (fun win c => mcD (pushWindow N win c)) rs cs,
              List.zipWith (fun win c => pushWindow N win c) rs cs)
  | [], [], _ => rfl
  | [], _ :: _, h => by simp at h
  | _ :: _, [], h => by simp at h
  | win :: rest, c :: cs, h => by
    have ih := addReadingAux_succeeds N hN rest cs (by simpa using h)
    simp only [addReadingAux, ih,
      mostCommonChar_of_ne_nil _ (pushWindow_ne_nil N hN win c), List.zipWith_cons_cons]

theorem addReadingAux_get (N : Nat) :
    ∀ (rs : List (List Char)) (cs out : List Char) (rs2 : List (List Char)),
      addReadingAux N rs cs = some (out, rs2) →
      ∀ i c, out.get? i = some c →
        ∃ win, rs2.get? i = some win ∧ mostCommonChar win = some c
  | [], [], out, rs2, h => by
    simp only [addReadingAux, Option.some_inj] at h
    obtain ⟨h1, h2⟩ := Prod.mk.injEq .. ▸ h
    subst h1
    intro i c hc
    simp at hc
  | [], _ :: _, out, rs2, h => by simp [addReadingAux] at h
  | _ :: _, [], out, rs2, h => by simp [addReadingAux] at h
  | win :: rest, c :: cs, out, rs2, h => by
    cases hmc : mostCommonChar (pushWindow N win c) with
    | none => simp [addReadingAux, hmc] at h
    | some m =>
      cases haux : addReadingAux N rest cs with
      | none => simp [addReadingAux, hmc, haux] at h
      | some pr =>
        obtain ⟨out2, wins2⟩ := pr
        have ih := addReadingAux_get N rest cs out2 wins2 haux
        simp only [addReadingAux, hmc, haux, Option.some_inj] at h
        obtain ⟨h1, h2⟩ := Prod.mk.injEq .. ▸ h
        subst h1; subst h2
        intro i c' hc'
        cases i with
        | zero =>
          simp only [List.get?_cons_zero, Option.some_inj] at hc'
          exact ⟨pushWindow N win c, rfl, hc' ▸ hmc⟩
        | succ i =>
          simp only [List.get?_cons_succ] at hc' ⊢
          exact ih i c' hc'

theorem winFeed_length (N : Nat) (hN : 1 ≤ N) (c : Char) :
    ∀ (k : Nat) (win : List Char), win.length = N → (winFeed N c k win).length = N
  | 0, _, h => h
  | k + 1, win, h => winFeed_length N hN c k _ (pushWindow_length N hN win c h)

theorem winFeed_drop (N : Nat) (hN : 1 ≤ N) (c : Char) :
    ∀ (k : Nat) (win : List Char), win.length = N → k ≤ N →
      winFeed N c k win = win.drop k ++ List.replicate k c
  | 0, win, _, _ => by simp [winFeed]
  | k + 1, win, h, hk => by
    have ih := winFeed_drop N hN c k (pushWindow N win c)
      (pushWindow_length N hN win c h) (by omega)
    rw [winFeed, ih, pushWindow_full N hN win c h]
    have htl : k ≤ win.tail.length := by
      cases win with
      | nil => simp at h; omega
      | cons w ws => simp at h ⊢; omega
    rw [List.drop_append_of_le_length htl]
    have hdt : win.tail.drop k = win.drop (k + 1) := by
      rw [← List.drop_one, List.drop_drop, Nat.add_comm]
    rw [hdt, List.append_assoc]
    rfl

theorem winFeed_add (N : Nat) (c : Char) :
    ∀ (a b : Nat) (win : List Char),
      winFeed N c (a + b) win = winFeed N c b (winFeed N c a win)
  | 0, b, win => by simp [winFeed]
  | a + 1, b, win => by
    have h1 : a + 1 + b = (a + b) + 1 := by omega
    rw [h1]
    show winFeed N c (a + b) (pushWindow N win c)
      = winFeed N c b (winFeed N c a (pushWindow N win c))
    exact winFeed_add N c a b (pushWindow N win c)

theorem pushWindow_replicate (N : Nat) (hN : 1 ≤ N) (c : Char) :
    pushWindow N (List.replicate N c) c = List.replicate N c := by
  rw [pushWindow_full N hN _ c (List.length_replicate ..), List.tail_replicate]
  have h1 : (N - 1) + 1 = N := by omega
  rw [← List.replicate_succ', h1]

theorem winFeed_replicate (N : Nat) (hN : 1 ≤ N) (c : Char) :
    ∀ k, winFeed N c k (List.replicate N c) = List.replicate N c
  | 0 => rfl
  | k + 1 => by
    rw [winFeed, pushWindow_replicate N hN c, winFeed_replicate N hN c k]

theorem winFeed_ge (N : Nat) (hN : 1 ≤ N) (c : Char) (k : Nat) (hk : N ≤ k)
    (win : List Char) (h : win.length = N) :
    winFeed N c k win = List.replicate N c := by
  have h1 : k = N + (k - N) := by omega
  have hd : win.drop N = [] := by rw [← h]; exact List.drop_length _
  rw [h1, winFeed_add, winFeed_drop N hN c N win h le_rfl, hd, List.nil_append,
    winFeed_replicate N hN c]

theorem normalizeWord_eq (W : Nat) (s : List Char) :
    normalizeWord W s = s.take W ++ List.replicate (W - s.length) ' ' := by
  unfold normalizeWord
  by_cases h1 : s.length = W
  · rw [if_pos h1, List.take_of_length_le (le_of_eq h1), h1, Nat.sub_self,
      List.replicate_zero, List.append_nil]
  · rw [if_neg h1]
    by_cases h2 : W < s.length
    · simp only [if_pos h2]
      have hlen : (s.take W).length = W := by rw [List.length_take]; omega
      rw [if_neg (by omega : ¬ (s.take W).length < W)]
      have h3 : W - s.length = 0 := by omega
      rw [h3, List.replicate_zero, List.append_nil]
    · simp only [if_neg h2]
      have hlt : s.length < W := by omega
      rw [if_pos hlt, List.take_of_length_le (by omega)]

theorem normalizeWord_length (W : Nat) (s : List Char) :
    (normalizeWord W s).length = W := by
  rw [normalizeWord_eq, List.length_append, List.length_take, List.length_replicate]
  omega

theorem feedAll_append (f : CharacterBasedSmoothingFilter) :
    ∀ (xs ys : List (List Char)),
      feedAll f (xs ++ ys) = (feedAll f xs).bind (fun g => feedAll g ys)
  | [], ys => by simp [feedAll]
  | x :: xs, ys => by
    cases h : add_reading f x with
    | none => simp [feedAll, h]
    | some p =>
      obtain ⟨o, f2⟩ := p
      simp [feedAll, h, feedAll_append f2 xs ys]

theorem add_reading_one (N : Nat) (hN : 1 ≤ N) (win : List Char) (c : Char) :
    add_reading ⟨1, N, [win]⟩ [c]
      = some ([mcD (pushWindow N win c)], ⟨1, N, [pushWindow N win c]⟩) := by
  unfold add_reading
  have hnorm : normalizeWord 1 [c] = [c] := by simp [normalizeWord]
  rw [hnorm, addReadingAux_succeeds N hN [win] [c] rfl]
  rfl

theorem feedAll_one (N : Nat) (hN : 1 ≤ N) (c : Char) :
    ∀ (k : Nat) (win : List Char),
      feedAll ⟨1, N, [win]⟩ (List.replicate k [c]) = some ⟨1, N, [winFeed N c k win]⟩
  | 0, _ => rfl
  | k + 1, win => by
    rw [List.replicate_succ]
    simp only [feedAll, add_reading_one N hN win c]
    exact feedAll_one N hN c k (pushWindow N win c)

theorem zipWith_zipWith_fuse {α β γ δ : Type} (f : γ → β → δ) (g : α → β → γ) :
    ∀ (as : List α) (bs : List β),
      List.zipWith f (List.zipWith g as bs) bs
        = List.zipWith (fun a b => f (g a b) b) as bs
  | [], _ => by simp
  | _ :: _, [] => by simp
  | a :: as, b :: bs => by
    simp [zipWith_zipWith_fuse f g as bs]

theorem zipWith_replicate_left {α β γ : Type} (f : α → β → γ) (a : α) :
    ∀ (bs : List β), List.zipWith f (List.replicate bs.length a) bs = bs.map (f a)
  | [] => rfl
  | b :: bs => by
    simp [List.replicate_succ, zipWith_replicate_left f a bs]

theorem zipWith_map_left_same {α β γ : Type} (f : γ → β → α) (g : β → γ) :
    ∀ (bs : List β), List.zipWith f (bs.map g) bs = bs.map (fun b => f (g b) b)
  | [] => rfl
  | b :: bs => by simp [zipWith_map_left_same f g bs]

theorem zipWith_left_id {α β : Type} :
    ∀ (as : List α) (bs : List β), as.length = bs.length →
      List.zipWith (fun a _ => a) as bs = as
  | [], [], _ => rfl
  | [], _ :: _, h => by simp at h
  | _ :: _, [], h => by simp at h
  | a :: as, b :: bs, h => by
    simp [zipWith_left_id as bs (by simpa using h)]

theorem add_reading_full (N : Nat) (hN : 1 ≤ N) (W : Nat) (rs : List (List Char))
    (cs : List Char) (hW : cs.length = W) (h : rs.length = cs.length) :
    add_reading ⟨W, N, rs⟩ cs
      = some (List.zipWith (fun win c => mcD (pushWindow N win c)) rs cs,
              ⟨W, N, List.zipWith (fun win c => pushWindow N win c) rs cs⟩) := by
  subst hW
  have hnorm : normalizeWord cs.length cs = cs := by
    rw [normalizeWord_eq, List.take_of_length_le le_rfl, Nat.sub_self,
      List.replicate_zero, List.append_nil]
  simp only [add_reading, hnorm, addReadingAux_succeeds N hN rs cs h]

theorem add_reading_spec (N : Nat) (hN : 1 ≤ N) (W : Nat) (rs : List (List Char))
    (s : List Char) (h : rs.length = W) :
    add_reading ⟨W, N, rs⟩ s
      = some (List.zipWith (fun win c => mcD (pushWindow N win c)) rs (normalizeWord W s),
              ⟨W, N, List.zipWith (fun win c => pushWindow N win c) rs
                (normalizeWord W s)⟩) := by
  simp only [add_reading,
    addReadingAux_succeeds N hN rs (normalizeWord W s) (by rw [normalizeWord_length, h])]

theorem feedAll_same (N : Nat) (hN : 1 ≤ N) (cs : List Char) :
    ∀ (k : Nat) (rs : List (List Char)), rs.length = cs.length →
      feedAll ⟨cs.length, N, rs⟩ (List.replicate k cs)
        = some ⟨cs.length, N, List.zipWith (fun win c => winFeed N c k win) rs cs⟩
  | 0, rs, h => by
    simp only [List.replicate_zero, feedAll, Option.some_inj]
    congr 1
    exact (zipWith_left_id rs cs h).symm
  | k + 1, rs, h => by
    rw [List.replicate_succ]
    simp only [feedAll, add_reading_full N hN cs.length rs cs rfl h]
    have ih := feedAll_same N hN cs k
      (List.zipWith (fun win c => pushWindow N win c) rs cs)
      (by rw [List.length_zipWith]; omega)
    rw [ih, zipWith_zipWith_fuse]
    rfl

theorem winFeed_push (N : Nat) (c : Char) :
    ∀ (k : Nat) (win : List Char),
      pushWindow N (winFeed N c k win) c = winFeed N c (k + 1) win
  | 0, _ => rfl
  | k + 1, win => by
    show pushWindow N (winFeed N c k (pushWindow N win c)) c
      = winFeed N c (k + 1) (pushWindow N win c)
    exact winFeed_push N c k (pushWindow N win c)

/-! ## Lemmas about change detection and the loop iteration -/

theorem countNonZeroDiff_self (f : Frame) : countNonZeroDiff f f = 0 := by
  suffices h : ∀ ps : List Pixel,
      (ps.zip ps).countP (fun pq => diffGray pq.1 pq.2 != 0) = 0 from h f.pixels
  intro ps
  induction ps with
  | nil => rfl
  | cons p ps ih =>
    have hd : diffGray p p = 0 := by simp [diffGray, absdiffNat]
    simp [List.zip_cons_cons, List.countP_cons, ih, hd]

theorem tesseract_iteration_changeSkip (cfg : ThreadConfig) (cache : Frame)
    (filt : CharacterBasedSmoothingFilter) (inp : IterationInput)
    (hav : frame_available inp = true) :
    (tesseract_iteration cfg cache filt inp).changeSkip
      = change_skip cfg.update_on_change cfg.update_on_change_threshold inp.frame cache := by
  cases hc : change_skip cfg.update_on_change cfg.update_on_change_threshold inp.frame cache with
  | true => simp [tesseract_iteration, hav, hc]
  | false => simp [tesseract_iteration, hav, hc]

theorem tesseract_iteration_boxesOut (cfg : ThreadConfig) (cache : Frame)
    (filt : CharacterBasedSmoothingFilter) (inp : IterationInput) :
    (tesseract_iteration cfg cache filt inp).boxesOut
      = if frame_available inp
            && !(change_skip cfg.update_on_change cfg.update_on_change_threshold
                  inp.frame cache)
            && cfg.output_image_valid then
          some (extract_text_detection_boxes cfg.psm_single_char cfg.conf_threshold
            inp.frame.width inp.frame.height inp.regions)
        else none := by
  cases hav : frame_available inp with
  | false => simp [tesseract_iteration, hav]
  | true =>
    cases hc : change_skip cfg.update_on_change cfg.update_on_change_threshold
        inp.frame cache with
    | true => simp [tesseract_iteration, hav, hc]
    | false =>
      cases hoi : cfg.output_image_valid with
      | true => simp [tesseract_iteration, hav, hc, hoi]
      | false => simp [tesseract_iteration, hav, hc, hoi]

theorem process_region_eq (level : PageIteratorLevel) (thr : Int) (imgW imgH : Nat)
    (r : RawRegion) :
    process_region level thr imgW imgH r
      = if r.isEmpty = true ∨ (level = .word ∧ r.confidence < thr)
            ∨ (r.right - r.left) * (r.bottom - r.top) < 100
            ∨ (((imgW * imgH) / 2 : Nat) : Int) < (r.right - r.left) * (r.bottom - r.top)
        then none
        else some ⟨r.left, r.top, r.right - r.left, r.bottom - r.top, r.text⟩ := by
  unfold process_region
  by_cases h1 : r.isEmpty = true
  · simp [h1]
  · by_cases h2 : level = .word ∧ r.confidence < thr
    · simp [h1, h2]
    · by_cases h3 : (r.right - r.left) * (r.bottom - r.top) < 100
          ∨ (((imgW * imgH) / 2 : Nat) : Int) < (r.right - r.left) * (r.bottom - r.top)
      · simp [h1, h2, h3]
      · simp [h1, h2, h3]

/-! ## Claims -/

/-- Claim C1, counterexample.  The claim states that with word length 1 and
window size N = 3, after three `"A"` readings the output stays `"A"` until the
third `"B"` reading.  In fact the majority flips as soon as the `'B'` count in
the window exceeds the `'A'` count: after `"A","A","A"` the first `"B"` still
yields `"A"`, but already the second `"B"` (window `ABB`) yields `"B"` — one
reading earlier than the claimed N-th. -/
theorem claim_C1_counterexample :
    ((feedAll (mkFilter 1 3) (List.replicate 3 ['A'])).bind
        (fun f => (add_reading f ['B']).map Prod.fst) = some ['A']) ∧
    ((feedAll (mkFilter 1 3) (List.replicate 3 ['A'] ++ List.replicate 1 ['B'])).bind
        (fun f => (add_reading f ['B']).map Prod.fst) = some ['B']) := by
  constructor
  · decide
  · decide

/-- Claim C1, amended.  With word length 1 and window size N, after N `"A"`
readings the j-th subsequent `"B"` reading yields `"A"` while `2*j ≤ N` (the
`'A'`s still hold a weak majority — on a tie the older `'A'` wins) and `"B"` as
soon as `2*j > N`; in particular the output flips to `"B"` at the
(⌊N/2⌋+1)-th `"B"` reading, not at the N-th. -/
theorem claim_C1_amended (N j : Nat) (hN : 1 ≤ N) (hj : 1 ≤ j) (hjN : j ≤ N) :
    (feedAll (mkFilter 1 N) (List.replicate N ['A'] ++ List.replicate (j - 1) ['B'])).bind
        (fun f => (add_reading f ['B']).map Prod.fst)
      = some [if 2 * j ≤ N then 'A' else 'B'] := by
  have h0 : (List.replicate N (Char.ofNat 0)).length = N := List.length_replicate ..
  have h1 : feedAll (mkFilter 1 N) (List.replicate N ['A'])
      = some ⟨1, N, [List.replicate N 'A']⟩ := by
    rw [show mkFilter 1 N = ⟨1, N, [List.replicate N (Char.ofNat 0)]⟩ from rfl,
      feedAll_one N hN 'A' N (List.replicate N (Char.ofNat 0)),
      winFeed_ge N hN 'A' N le_rfl _ h0]
  have h2 : feedAll ⟨1, N, [List.replicate N 'A']⟩ (List.replicate (j - 1) ['B'])
      = some ⟨1, N, [List.replicate (N - (j - 1)) 'A' ++ List.replicate (j - 1) 'B']⟩ := by
    rw [feedAll_one N hN 'B' (j - 1) (List.replicate N 'A'),
      winFeed_drop N hN 'B' (j - 1) _ (List.length_replicate ..) (by omega),
      List.drop_replicate]
  rw [feedAll_append, h1, Option.some_bind, h2, Option.some_bind,
    add_reading_one N hN _ 'B', Option.map_some']
  have hpos : N - (j - 1) = (N - j) + 1 := by omega
  have htail : (List.replicate (N - (j - 1)) 'A' ++ List.replicate (j - 1) 'B').tail
      = List.replicate (N - j) 'A' ++ List.replicate (j - 1) 'B' := by
    rw [hpos, List.replicate_succ, List.cons_append, List.tail_cons]
  have hw : pushWindow N (List.replicate (N - (j - 1)) 'A' ++ List.replicate (j - 1) 'B') 'B'
      = List.replicate (N - j) 'A' ++ List.replicate j 'B' := by
    rw [pushWindow_full N hN _ 'B'
        (by rw [List.length_append, List.length_replicate, List.length_replicate]; omega),
      htail, List.append_assoc]
    congr 1
    rw [← List.replicate_succ']
    congr 1
    omega
  have hmc : mcD (List.replicate (N - j) 'A' ++ List.replicate j 'B')
      = if 2 * j ≤ N then 'A' else 'B' := by
    have h := mostCommonChar_replicate_append 'A' 'B' (by decide) (N - j) j (by omega)
    simp only [mcD, h, Option.getD_some]
    by_cases hc : 2 * j ≤ N
    · rw [if_neg (by omega : ¬ N - j < j), if_pos hc]
    · rw [if_pos (by omega : N - j < j), if_neg hc]
  rw [hw, hmc]

/-- Claim C1, witness for the amended theorem at N = 3, j = 2: the second
`"B"` reading after `"A","A","A"` yields `"B"`. -/
theorem claim_C1_witness :
    (feedAll (mkFilter 1 3) (List.replicate 3 ['A'] ++ List.replicate (2 - 1) ['B'])).bind
        (fun f => (add_reading f ['B']).map Prod.fst) = some ['B'] := by
  have h := claim_C1_amended 3 2 (by decide) (by decide) (by decide)
  simpa using h

/-- Claim C5: for a freshly constructed filter with word length W and window
size N, W ≥ N (and N ≥ 1, else the C++ `max_element` call has undefined
behaviour on an empty range), feeding the same word of length W exactly W times
yields that word as the output of the last call: after W ≥ N pushes every
window holds N copies of its position's character, so each majority vote
returns it. -/
theorem claim_C5 (W N : Nat) (w : List Char) (hN : 1 ≤ N) (hNW : N ≤ W)
    (hw : w.length = W) :
    (feedAll (mkFilter W N) (List.replicate (W - 1) w)).bind
        (fun f => (add_reading f w).map Prod.fst) = some w := by
  subst hw
  rw [show mkFilter w.length N
      = ⟨w.length, N, List.replicate w.length (List.replicate N (Char.ofNat 0))⟩ from rfl,
    feedAll_same N hN w (w.length - 1)
      (List.replicate w.length (List.replicate N (Char.ofNat 0)))
      (List.length_replicate ..),
    Option.some_bind, zipWith_replicate_left,
    add_reading_full N hN w.length _ w rfl (by rw [List.length_map]),
    Option.map_some', zipWith_map_left_same]
  have hmap : w.map (fun c => mcD (pushWindow N
        (winFeed N c (w.length - 1) (List.replicate N (Char.ofNat 0))) c))
      = w.map (fun c => c) := by
    refine List.map_congr_left ?_
    intro c _
    rw [winFeed_push N c (w.length - 1),
      (by omega : (w.length - 1) + 1 = w.length),
      winFeed_ge N hN c w.length hNW _ (List.length_replicate ..)]
    simp only [mcD, mostCommonChar_replicate c N hN, Option.getD_some]
  rw [hmap, List.map_id']

/-- Claim C5, witness at W = N = 2 with the word `"hi"`. -/
theorem claim_C5_witness :
    (feedAll (mkFilter 2 2) (List.replicate (2 - 1) ['h', 'i'])).bind
        (fun f => (add_reading f ['h', 'i']).map Prod.fst) = some ['h', 'i'] :=
  claim_C5 2 2 ['h', 'i'] (by decide) (by decide) (by decide)

/-- Claim C6: for any filter state respecting the class invariant (one window
per character position) with window size at least 1 (window size 0 would make
the C++ `max_element` call dereference an end iterator), `add_reading` succeeds
on any input and returns a string of exactly `word_length` characters; and the
input normalization truncates to `word_length` and right-pads with spaces. -/
theorem claim_C6 (f : CharacterBasedSmoothingFilter) (s : List Char)
    (hlen : f.readings.length = f.word_length) (hN : 1 ≤ f.window_size) :
    (∃ res, add_reading f s = some res ∧ res.1.length = f.word_length) ∧
    normalizeWord f.word_length s
      = s.take f.word_length ++ List.replicate (f.word_length - s.length) ' ' := by
  obtain ⟨W, N, rs⟩ := f
  simp only at hlen hN ⊢
  refine ⟨⟨?_, ?_, ?_⟩, normalizeWord_eq W s⟩
  · exact (List.zipWith (fun win c => mcD (pushWindow N win c)) rs (normalizeWord W s),
      ⟨W, N, List.zipWith (fun win c => pushWindow N win c) rs (normalizeWord W s)⟩)
  · exact add_reading_spec N hN W rs s hlen
  · simp only [List.length_zipWith, normalizeWord_length, hlen, Nat.min_self]

/-- Claim C6, witness: word length 3, window size 2, a 5-character input. -/
theorem claim_C6_witness :
    ∃ res, add_reading (mkFilter 3 2) ['a', 'b', 'c', 'd', 'e'] = some res ∧
      res.1.length = (mkFilter 3 2).word_length :=
  (claim_C6 (mkFilter 3 2) ['a', 'b', 'c', 'd', 'e'] (by decide) (by decide)).1

/-- Claim C7: each character emitted by `add_reading` is the most common
character of that position's updated window — it attains the maximal occurrence
count, and every window element strictly before its position has a strictly
smaller count, so among values tied for the maximum the one appearing earliest
in oldest-to-newest window order is selected (no alphabetic ordering is
involved). -/
theorem claim_C7 (f : CharacterBasedSmoothingFilter) (s : List Char)
    (out : List Char) (f2 : CharacterBasedSmoothingFilter)
    (h : add_reading f s = some (out, f2))
    (i : Nat) (c : Char) (hc : out.get? i = some c) :
    ∃ win, f2.readings.get? i = some win ∧
      mostCommonChar win = some c ∧
      (∀ d ∈ win, win.count d ≤ win.count c) ∧
      ∃ as bs, win = as ++ c :: bs ∧ ∀ a ∈ as, win.count a < win.count c := by
  have hex : ∃ rs2, addReadingAux f.window_size f.readings (normalizeWord f.word_length s)
      = some (out, rs2) ∧ f2.readings = rs2 := by
    unfold add_reading at h
    cases haux : addReadingAux f.window_size f.readings (normalizeWord f.word_length s) with
    | none => rw [haux] at h; cases h
    | some pr =>
      obtain ⟨out2, rs2⟩ := pr
      rw [haux] at h
      simp only [Option.some_inj] at h
      obtain ⟨h1, h2⟩ := Prod.mk.injEq .. ▸ h
      subst h1
      refine ⟨rs2, rfl, ?_⟩
      rw [← h2]
  obtain ⟨rs2, haux, hrs2⟩ := hex
  obtain ⟨win, hwin, hmc⟩ :=
    addReadingAux_get f.window_size f.readings (normalizeWord f.word_length s)
      out rs2 haux i c hc
  obtain ⟨hmax, as, bs, hsplit, hfirst⟩ := mostCommonChar_spec win c hmc
  exact ⟨win, by rw [hrs2]; exact hwin, hmc, hmax, as, bs, hsplit, hfirst⟩

/-- Claim C7, witness: a fresh filter with word length 1, window size 2 fed
`"A"`; the updated window is `['\0', 'A']`, both characters occur once, and the
NUL — the value appearing first in oldest-to-newest order — is emitted, not the
alphabetically smaller or larger value. -/
theorem claim_C7_witness :
    ∃ win, (⟨1, 2, [[Char.ofNat 0, 'A']]⟩ :
        CharacterBasedSmoothingFilter).readings.get? 0 = some win ∧
      mostCommonChar win = some (Char.ofNat 0) ∧
      (∀ d ∈ win, win.count d ≤ win.count (Char.ofNat 0)) ∧
      ∃ as bs, win = as ++ (Char.ofNat 0) :: bs ∧
        ∀ a ∈ as, win.count a < win.count (Char.ofNat 0) :=
  claim_C7 (mkFilter 1 2) ['A'] [Char.ofNat 0] ⟨1, 2, [[Char.ofNat 0, 'A']]⟩
    (by decide) 0 (Char.ofNat 0) (by decide)

/-- Claim C10: a freshly constructed filter has every per-position window
already holding `window_size` NUL characters, so for word length W ≥ 1 and
window size N ≥ 3 the first `add_reading` call returns W NUL characters
regardless of the input: each updated window holds N−1 ≥ 2 NULs against one
input character. -/
theorem claim_C10 (W N : Nat) (s : List Char) (_hW : 1 ≤ W) (hN : 3 ≤ N) :
    (mkFilter W N).readings = List.replicate W (List.replicate N (Char.ofNat 0)) ∧
    (add_reading (mkFilter W N) s).map Prod.fst
      = some (List.replicate W (Char.ofNat 0)) := by
  have hN1 : 1 ≤ N := by omega
  refine ⟨rfl, ?_⟩
  rw [show mkFilter W N
      = ⟨W, N, List.replicate W (List.replicate N (Char.ofNat 0))⟩ from rfl]
  have hlen : (normalizeWord W s).length = W := normalizeWord_length W s
  rw [add_reading_spec N hN1 W _ s (List.length_replicate ..), Option.map_some',
    show (List.replicate W (List.replicate N (Char.ofNat 0)))
      = List.replicate (normalizeWord W s).length (List.replicate N (Char.ofNat 0)) by
        rw [hlen],
    zipWith_replicate_left]
  have hmap : (normalizeWord W s).map
        (fun c => mcD (pushWindow N (List.replicate N (Char.ofNat 0)) c))
      = (normalizeWord W s).map (fun _ => Char.ofNat 0) := by
    refine List.map_congr_left ?_
    intro c _
    rw [pushWindow_full N hN1 _ c (List.length_replicate ..), List.tail_replicate]
    by_cases hc : c = Char.ofNat 0
    · subst hc
      rw [show List.replicate (N - 1) (Char.ofNat 0) ++ [Char.ofNat 0]
          = List.replicate ((N - 1) + 1) (Char.ofNat 0) from (List.replicate_succ' ..).symm]
      simp only [mcD, mostCommonChar_replicate (Char.ofNat 0) ((N - 1) + 1) (by omega),
        Option.getD_some]
    · have h := mostCommonChar_replicate_append (Char.ofNat 0) c
        (fun hh => hc hh.symm) (N - 1) 1 (by omega)
      rw [show List.replicate 1 c = [c] from rfl] at h
      simp only [mcD, h, Option.getD_some]
      rw [if_neg (by omega : ¬ N - 1 < 1)]
  rw [hmap]
  rw [show (normalizeWord W s).map (fun _ => Char.ofNat 0)
      = List.replicate (normalizeWord W s).length (Char.ofNat 0) from List.map_const' ..]
  rw [hlen]

/-- Claim C10, witness: word length 2, window size 3, input `"ZQ"`: the first
call returns two NUL characters. -/
theorem claim_C10_witness :
    (mkFilter 2 3).readings = List.replicate 2 (List.replicate 3 (Char.ofNat 0)) ∧
    (add_reading (mkFilter 2 3) ['Z', 'Q']).map Prod.fst
      = some (List.replicate 2 (Char.ofNat 0)) :=
  claim_C10 2 3 ['Z', 'Q'] (by decide) (by decide)

/-- Claim C4: in `extract_text_detection_boxes`, a region whose bounding-box
area is strictly below 100 is discarded; a region whose area exceeds half the
image area (`(width*height)/2`, integer division) is discarded; and a non-empty
region whose area lies in `[100, (width*height)/2]` — half the image area
included — is kept, provided (at word level only) its confidence reaches the
threshold; the surviving box then appears in the extracted list. -/
theorem claim_C4 (single : Bool) (thr : Int) (imgW imgH : Nat) (r : RawRegion)
    (rs : List RawRegion) :
    ((r.right - r.left) * (r.bottom - r.top) < 100 →
      process_region (region_level single) thr imgW imgH r = none) ∧
    ((((imgW * imgH) / 2 : Nat) : Int) < (r.right - r.left) * (r.bottom - r.top) →
      process_region (region_level single) thr imgW imgH r = none) ∧
    (r.isEmpty = false →
      100 ≤ (r.right - r.left) * (r.bottom - r.top) →
      (r.right - r.left) * (r.bottom - r.top) ≤ (((imgW * imgH) / 2 : Nat) : Int) →
      (region_level single = .word → thr ≤ r.confidence) →
      process_region (region_level single) thr imgW imgH r
          = some ⟨r.left, r.top, r.right - r.left, r.bottom - r.top, r.text⟩ ∧
        (r ∈ rs →
          (⟨r.left, r.top, r.right - r.left, r.bottom - r.top, r.text⟩ : OCRBox)
            ∈ extract_text_detection_boxes single thr imgW imgH rs)) := by
  refine ⟨?_, ?_, ?_⟩
  · intro h
    rw [process_region_eq, if_pos (Or.inr (Or.inr (Or.inl h)))]
  · intro h
    rw [process_region_eq, if_pos (Or.inr (Or.inr (Or.inr h)))]
  · intro he h100 hhalf hconf
    have hcond : ¬ (r.isEmpty = true ∨ (region_level single = .word ∧ r.confidence < thr)
        ∨ (r.right - r.left) * (r.bottom - r.top) < 100
        ∨ (((imgW * imgH) / 2 : Nat) : Int)
            < (r.right - r.left) * (r.bottom - r.top)) := by
      rintro (h1 | ⟨hl, hc⟩ | h3 | h4)
      · rw [he] at h1; cases h1
      · have := hconf hl; omega
      · omega
      · omega
    refine ⟨by rw [process_region_eq, if_neg hcond], ?_⟩
    intro hmem
    unfold extract_text_detection_boxes
    rw [List.mem_filterMap]
    exact ⟨r, hmem, by rw [process_region_eq, if_neg hcond]⟩

/-- Claim C4, witness on a 30×20 image (area 600, half 300), word level,
threshold 50: area 50 is discarded, area 400 is discarded, area exactly 300
with confidence 80 is kept and appears in the extracted box list. -/
theorem claim_C4_witness :
    process_region (region_level false) 50 30 20 ⟨false, 80, 0, 0, 10, 5, ['a']⟩ = none ∧
    process_region (region_level false) 50 30 20 ⟨false, 80, 0, 0, 20, 20, ['b']⟩ = none ∧
    process_region (region_level false) 50 30 20 ⟨false, 80, 0, 0, 20, 15, ['c']⟩
      = some ⟨0, 0, 20, 15, ['c']⟩ ∧
    (⟨0, 0, 20, 15, ['c']⟩ : OCRBox) ∈ extract_text_detection_boxes false 50 30 20
      [⟨false, 80, 0, 0, 10, 5, ['a']⟩, ⟨false, 80, 0, 0, 20, 15, ['c']⟩,
        ⟨false, 80, 0, 0, 20, 20, ['b']⟩] := by
  refine ⟨?_, ?_, ?_, ?_⟩
  · exact (claim_C4 false 50 30 20 ⟨false, 80, 0, 0, 10, 5, ['a']⟩ []).1 (by decide)
  · exact (claim_C4 false 50 30 20 ⟨false, 80, 0, 0, 20, 20, ['b']⟩ []).2.1 (by decide)
  · exact ((claim_C4 false 50 30 20 ⟨false, 80, 0, 0, 20, 15, ['c']⟩ []).2.2
      rfl (by decide) (by decide) (fun _ => by decide)).1
  · exact ((claim_C4 false 50 30 20 ⟨false, 80, 0, 0, 20, 15, ['c']⟩
      [⟨false, 80, 0, 0, 10, 5, ['a']⟩, ⟨false, 80, 0, 0, 20, 15, ['c']⟩,
        ⟨false, 80, 0, 0, 20, 20, ['b']⟩]).2.2
      rfl (by decide) (by decide) (fun _ => by decide)).2 (by simp)

/-- Claim C8: when the backend's mean confidence is strictly below the
configured threshold, `run_tesseract_ocr` returns the empty string and leaves
the smoothing filter untouched; and the detection-box output of the loop
iteration does not depend on the mean confidence at all (region extraction
proceeds independently of the discarded textual result). -/
theorem claim_C8 (cfg : ThreadConfig) (cache : Frame)
    (filt : CharacterBasedSmoothingFilter) (inp : IterationInput) (c2 : Int)
    (h : inp.meanConfidence < cfg.conf_threshold) :
    run_tesseract_ocr ⟨cfg.conf_threshold, cfg.enable_smoothing⟩ filt
        ⟨inp.ocrText, inp.meanConfidence⟩ = some ([], filt) ∧
    (tesseract_iteration cfg cache filt inp).boxesOut
      = (tesseract_iteration cfg cache filt
          { inp with meanConfidence := c2 }).boxesOut := by
  constructor
  · simp only [run_tesseract_ocr]
    cases hoc : inp.ocrText with
    | none => rfl
    | some t => simp [h]
  · rw [tesseract_iteration_boxesOut, tesseract_iteration_boxesOut]
    rfl

/-- Claim C8, witness: confidence 40 against threshold 60: empty result,
unchanged filter, and the same box output as with confidence 90. -/
theorem claim_C8_witness :
    run_tesseract_ocr ⟨(60 : Int), false⟩ (mkFilter 1 1) ⟨some ['h', 'i'], 40⟩
        = some ([], mkFilter 1 1) ∧
    (tesseract_iteration ⟨false, 0, 60, false, false, true, true, 100⟩ ⟨0, 0, []⟩
        (mkFilter 1 1)
        ⟨true, ⟨1, 1, [⟨0, 0, 0, 255⟩]⟩, some ['h', 'i'], 40, [], 0⟩).boxesOut
      = (tesseract_iteration ⟨false, 0, 60, false, false, true, true, 100⟩ ⟨0, 0, []⟩
        (mkFilter 1 1)
        ⟨true, ⟨1, 1, [⟨0, 0, 0, 255⟩]⟩, some ['h', 'i'], 90, [], 0⟩).boxesOut :=
  claim_C8 ⟨false, 0, 60, false, false, true, true, 100⟩ ⟨0, 0, []⟩ (mkFilter 1 1)
    ⟨true, ⟨1, 1, [⟨0, 0, 0, 255⟩]⟩, some ['h', 'i'], 40, [], 0⟩ 90 (by decide)

/-- Claim C9: the last-frame cache is overwritten exactly when a frame is
genuinely processed — a change-detection skip leaves the cache unchanged, a
frame that continues past the change check replaces it, and an iteration that
obtained no frame leaves it unchanged as well. -/
theorem claim_C9 (cfg : ThreadConfig) (cache : Frame)
    (filt : CharacterBasedSmoothingFilter) (inp : IterationInput) :
    ((tesseract_iteration cfg cache filt inp).changeSkip = true →
      (tesseract_iteration cfg cache filt inp).cacheAfter = cache) ∧
    (frame_available inp = true →
      (tesseract_iteration cfg cache filt inp).changeSkip = false →
      (tesseract_iteration cfg cache filt inp).cacheAfter = inp.frame) ∧
    (frame_available inp = false →
      (tesseract_iteration cfg cache filt inp).cacheAfter = cache) := by
  refine ⟨?_, ?_, ?_⟩
  · intro h
    cases hav : frame_available inp with
    | false => simp [tesseract_iteration, hav] at h
    | true =>
      cases hc : change_skip cfg.update_on_change cfg.update_on_change_threshold
          inp.frame cache with
      | false =>
        rw [tesseract_iteration_changeSkip cfg cache filt inp hav, hc] at h
        cases h
      | true => simp [tesseract_iteration, hav, hc]
  · intro hav h
    cases hc : change_skip cfg.update_on_change cfg.update_on_change_threshold
        inp.frame cache with
    | true =>
      rw [tesseract_iteration_changeSkip cfg cache filt inp hav, hc] at h
      cases h
    | false => simp [tesseract_iteration, hav, hc]
  · intro hav
    simp [tesseract_iteration, hav]

/-- Claim C9, witness: a change-detection skip (identical 1×1 frames,
threshold 100%) keeps the cache; a processed frame (change detection disabled)
replaces it. -/
theorem claim_C9_witness :
    (tesseract_iteration ⟨true, 100, 0, false, false, false, false, 100⟩
        ⟨1, 1, [⟨5, 5, 5, 255⟩]⟩ (mkFilter 1 1)
        ⟨true, ⟨1, 1, [⟨5, 5, 5, 255⟩]⟩, none, 0, [], 0⟩).cacheAfter
      = ⟨1, 1, [⟨5, 5, 5, 255⟩]⟩ ∧
    (tesseract_iteration ⟨false, 0, 0, false, false, false, false, 100⟩
        ⟨0, 0, []⟩ (mkFilter 1 1)
        ⟨true, ⟨2, 2, List.replicate 4 ⟨9, 9, 9, 255⟩⟩, none, 0, [], 0⟩).cacheAfter
      = ⟨2, 2, List.replicate 4 ⟨9, 9, 9, 255⟩⟩ := by
  constructor
  · exact (claim_C9 _ _ _ _).1 (by decide)
  · exact (claim_C9 _ _ _ _).2.1 (by decide) (by decide)

/-- Claim C3, counterexample.  The claim states that with change detection
enabled, *every* configured percentage threshold makes an identical frame
(zero diff, same size) skip.  With threshold 1% on a 5×5 frame the computed
pixel threshold is `(int)(1/100 * 25) = 0`, and `0 < 0` fails, so the identical
frame is *not* skipped (`changeSkip = false`); the same happens for
threshold 0 on any frame. -/
theorem claim_C3_counterexample :
    (tesseract_iteration ⟨true, 1, 0, false, false, false, false, 100⟩
        ⟨5, 5, List.replicate 25 ⟨7, 7, 7, 255⟩⟩ (mkFilter 1 1)
        ⟨true, ⟨5, 5, List.replicate 25 ⟨7, 7, 7, 255⟩⟩, none, 0, [], 0⟩).changeSkip
      = false := by decide

/-- Claim C3, amended.  With change detection enabled and matching dimensions:
a frame identical to the cache is skipped *provided* the computed pixel
threshold `⌊threshold% · width · height⌋` is at least one pixel; and a frame
whose gray-converted absolute difference is nonzero in strictly more than
`threshold% · width · height` pixels is not skipped.  (The float expression of
the source is modelled in exact arithmetic.) -/
theorem claim_C3_amended (cfg : ThreadConfig) (cache : Frame)
    (filt : CharacterBasedSmoothingFilter) (inp : IterationInput)
    (hon : cfg.update_on_change = true)
    (hsz : sameSize inp.frame cache = true)
    (hav : frame_available inp = true) :
    (inp.frame = cache →
      1 ≤ change_threshold_px cfg.update_on_change_threshold
          inp.frame.width inp.frame.height →
      (tesseract_iteration cfg cache filt inp).changeSkip = true) ∧
    (cfg.update_on_change_threshold * (inp.frame.width * inp.frame.height)
        < 100 * countNonZeroDiff inp.frame cache →
      (tesseract_iteration cfg cache filt inp).changeSkip = false) := by
  rw [tesseract_iteration_changeSkip cfg cache filt inp hav]
  constructor
  · intro heq hthr
    subst heq
    unfold change_skip
    rw [hon, hsz, countNonZeroDiff_self]
    simp only [Bool.true_and, decide_eq_true_eq]
    omega
  · intro hdiff
    unfold change_skip
    rw [hon, hsz]
    have hge : ¬ (countNonZeroDiff inp.frame cache
        < change_threshold_px cfg.update_on_change_threshold
            inp.frame.width inp.frame.height) := by
      unfold change_threshold_px
      omega
    simp [hge]

/-- Claim C3, witness at threshold 50% on a 2×2 frame (pixel threshold 2):
an identical frame is skipped; a frame differing in all 4 pixels
(4·100 > 50·4) is not skipped. -/
theorem claim_C3_witness :
    (tesseract_iteration ⟨true, 50, 0, false, false, false, false, 100⟩
        ⟨2, 2, List.replicate 4 ⟨0, 0, 0, 255⟩⟩ (mkFilter 1 1)
        ⟨true, ⟨2, 2, List.replicate 4 ⟨0, 0, 0, 255⟩⟩, none, 0, [], 0⟩).changeSkip
      = true ∧
    (tesseract_iteration ⟨true, 50, 0, false, false, false, false, 100⟩
        ⟨2, 2, List.replicate 4 ⟨0, 0, 0, 255⟩⟩ (mkFilter 1 1)
        ⟨true, ⟨2, 2, List.replicate 4 ⟨255, 255, 255, 255⟩⟩, none, 0, [], 0⟩).changeSkip
      = false := by
  constructor
  · exact (claim_C3_amended _ _ _ _ rfl (by decide) (by decide)).1 rfl (by decide)
  · exact (claim_C3_amended _ _ _ _ rfl (by decide) (by decide)).2 (by decide)

/-- Claim C2 — violated by the code (code bug).  The claim states every
iteration, including change-detection skips, proceeds to the sleep step.  In
the source, the change-detection skip exits the loop body with `continue`,
which jumps straight to the next iteration and **bypasses** the sleep block at
the bottom of the `while` body: here, with period 100 ms, a 1×1 frame identical
to the cache and threshold 100% (pixel threshold 1), the iteration skips and
never reaches the sleep (`reachedSleep = false`), busy-looping instead.  By
contrast, an iteration that merely failed to acquire the frame lock does fall
through to the sleep and waits `max 0 (period − elapsed)` (here
`100 − 30 = 70` ms), as the claim describes. -/
theorem claim_C2_skip_no_sleep :
    ((tesseract_iteration ⟨true, 100, 0, false, false, false, false, 100⟩
        ⟨1, 1, [⟨9, 9, 9, 255⟩]⟩ (mkFilter 1 1)
        ⟨true, ⟨1, 1, [⟨9, 9, 9, 255⟩]⟩, none, 0, [], 0⟩).changeSkip = true ∧
      (tesseract_iteration ⟨true, 100, 0, false, false, false, false, 100⟩
        ⟨1, 1, [⟨9, 9, 9, 255⟩]⟩ (mkFilter 1 1)
        ⟨true, ⟨1, 1, [⟨9, 9, 9, 255⟩]⟩, none, 0, [], 0⟩).reachedSleep = false) ∧
    ((tesseract_iteration ⟨true, 100, 0, false, false, false, false, 100⟩
        ⟨1, 1, [⟨9, 9, 9, 255⟩]⟩ (mkFilter 1 1)
        ⟨false, ⟨1, 1, [⟨9, 9, 9, 255⟩]⟩, none, 0, [], 30⟩).reachedSleep = true ∧
      (tesseract_iteration ⟨true, 100, 0, false, false, false, false, 100⟩
        ⟨1, 1, [⟨9, 9, 9, 255⟩]⟩ (mkFilter 1 1)
        ⟨false, ⟨1, 1, [⟨9, 9, 9, 255⟩]⟩, none, 0, [], 30⟩).sleepMs = 70) := by
  refine ⟨⟨?_, ?_⟩, ?_, ?_⟩ <;> decide

end ObsOcr
